import Mathlib

/-!
Verification of the directory-tree lister `rich-ls.py`.

The development gives a shallow embedding of the two core components of the
program — `load_gitignore_patterns` (gitignore resolution over the ancestor
chain of the start directory) and `walk_directory` (the recursive
traversal-and-filtering engine) — together with the error-handling dispatch of
`main`, and proves the documented properties about them.

Modelling conventions:
* A filesystem subtree is a finitely branching tree of `FSEntry` values; the
  order of a `children` list models the (arbitrary) order in which
  `pathlib.Path.iterdir` enumerates a directory.
* Absolute paths are lists of name components from the filesystem root.
* The two external collaborators that the source consumes through narrow
  interfaces — the glob matcher `fnmatch.fnmatch(name, pattern)` and the
  compiled gitignore rule set `pathspec.PathSpec` with its `match_file`
  method — are modelled as function parameters (`fnmatchFn`, `matchFile`) of
  the walker configuration, so every theorem holds for an arbitrary
  behaviour of those collaborators.  A compiled `PathSpec` value itself is
  represented by the list of pattern lines it was built from.
* Rendering concerns (rich markup strings, the `decimal` size formatter, the
  `--links` hyperlink decoration) only affect the label text handed to the
  rendering collaborator, never which nodes exist, so an emitted node is
  modelled as its name, its kind, its style hint, its byte size and its icon
  choice, plus the recursively produced children.
* `sorted(..., key=lambda path: (path.is_file(), path.name.lower()))` is a
  stable sort by that key.  A stable sort for a given total preorder is
  extensionally unique, so it is embedded by a stable insertion sort over the
  same key; `str.lower` is embedded per character (the entries exercised by
  the claims are ASCII) and tuple/string comparison by code points, exactly
  Python's comparison on these keys.
-/

/-- Filesystem entry as observed during traversal: a file with its byte size,
or a directory with the list of its children in enumeration order. -/
inductive FSEntry where
  | file (name : String) (size : Nat)
  | dir (name : String) (children : List FSEntry)

/-- Name of an entry (`path.name`). -/
def FSEntry.name : FSEntry → String
  | .file n _ => n
  | .dir n _ => n

/-- Embedding of `path.is_file()` for enumerated entries. -/
def FSEntry.isFile : FSEntry → Bool
  | .file _ _ => true
  | .dir _ _ => false

/-- Embedding of `path.is_dir()` for enumerated entries. -/
def FSEntry.isDir : FSEntry → Bool
  | .file _ _ => false
  | .dir _ _ => true

/-- Tree node handed to the rendering collaborator: the data the walker
decides on (name, kind, style hint, byte size for files, icon for files) and
the recursively built children. -/
inductive RNode where
  | mk (name : String) (isDir : Bool) (style : String) (size : Option Nat)
       (icon : String) (children : List RNode)

/-- Name stored in a node. -/
def RNode.name : RNode → String
  | .mk n _ _ _ _ _ => n

/-- Directory flag stored in a node. -/
def RNode.isDir : RNode → Bool
  | .mk _ d _ _ _ _ => d

/-- Children list stored in a node. -/
def RNode.children : RNode → List RNode
  | .mk _ _ _ _ _ cs => cs

/-- Lowered code point of one character: ASCII upper-case letters move to
their lower-case counterpart, everything else is unchanged. -/
def charLower (c : Char) : Nat :=
  if 65 ≤ c.toNat && c.toNat ≤ 90 then c.toNat + 32 else c.toNat

/-- Code points of a name after `str.lower()`, the second sort-key component
of `path.name.lower()` (per-character lowering; ASCII-faithful). -/
def lowerChars (s : String) : List Nat :=
  s.data.map charLower

/-- Lexicographic comparison of code-point lists: Python string `<=`. -/
def natListLe : List Nat → List Nat → Bool
  | [], _ => true
  | _ :: _, [] => false
  | a :: as, b :: bs => a < b || (a == b && natListLe as bs)

/-- Non-strict comparison of the sort keys
`(path.is_file(), path.name.lower())`: Python tuple comparison with
`False < True`, so directories order before files. -/
def entryLe (a b : FSEntry) : Bool :=
  (!a.isFile && b.isFile) ||
    (a.isFile == b.isFile && natListLe (lowerChars a.name) (lowerChars b.name))

/-- Stable insertion of an entry into an already sorted list: the entry goes
before the first strictly greater element, hence after every earlier element
with an equal key, as a stable sort demands. -/
def insertSorted (e : FSEntry) : List FSEntry → List FSEntry
  | [] => [e]
  | x :: xs => if entryLe e x then e :: x :: xs else x :: insertSorted e xs

/-- Embedding of `sorted(pathlib.Path(directory).iterdir(), key=...)`: the
unique stable sort by `entryLe` of the enumerated children. -/
def sortEntries : List FSEntry → List FSEntry
  | [] => []
  | x :: xs => insertSorted x (sortEntries xs)

/-- Compiled gitignore rule set, `pathspec.PathSpec.from_lines("gitwildmatch",
patterns)`, represented by the pattern lines it was built from. -/
structure PathSpec where
  lines : List String
deriving DecidableEq

/-- Filter options threaded through `walk_directory`, including the two
external collaborators (glob matcher, compiled-rule-set matcher) as abstract
functions. -/
structure WalkConfig where
  fnmatchFn : String → String → Bool
  matchFile : PathSpec → String → Bool
  excludePatterns : Option (List String)
  gitignoreSpec : Option PathSpec
  gitRoot : Option (List String)
  showHidden : Bool
  maxDepth : Option Nat

/-- Depth guard of `walk_directory`:
`max_depth is not None and current_depth >= max_depth`. -/
def atMaxDepth : Option Nat → Nat → Bool
  | some m, c => decide (m ≤ c)
  | none, _ => false

/-- Embedding of `path.relative_to(git_root)`: the remaining components when
`root` is a prefix of `path`, and `none` (a raised `ValueError`) otherwise. -/
def relativeTo (path root : List String) : Option (List String) :=
  if root.isPrefixOf path then some (path.drop root.length) else none

/-- String form of a relative path, `str(rel_path)` for a `pathlib` path. -/
def pathStr (components : List String) : String :=
  match components with
  | [] => "."
  | _ => String.intercalate "/" components

/-- Embedding of `str.startswith(prefix)` on names, by character-list
comparison (kernel-computable, unlike the builtin). -/
def strStartsWith (s p : String) : Bool :=
  p.data.isPrefixOf s.data

/-- Gitignore skip test applied to a child (lines 93-101): only performed when
both a rule set and a git root are present; a failing `relative_to` skips the
check for that entry only. -/
def shouldIgnoreEntry (cfg : WalkConfig) (childPath : List String) : Bool :=
  match cfg.gitignoreSpec, cfg.gitRoot with
  | some s, some r =>
      match relativeTo childPath r with
      | some rel => cfg.matchFile s (pathStr rel)
      | none => false
  | _, _ => false

/-- Exclusion skip test (lines 103-106): with a truthy pattern list, the bare
name is tested against each glob with `fnmatch.fnmatch`. -/
def shouldExcludeEntry (cfg : WalkConfig) (name : String) : Bool :=
  match cfg.excludePatterns with
  | some ps => !ps.isEmpty && ps.any fun p => cfg.fnmatchFn name p
  | none => false

/-- Style hint for a directory node (line 110): dim for a double-underscore
convention name. -/
def dirStyle (name : String) : String :=
  if strStartsWith name "__" then "dim" else ""

/-- Index of the last dot in a character list, if any. -/
def rfindDot : List Char → Option Nat
  | [] => none
  | c :: cs =>
      match rfindDot cs with
      | some i => some (i + 1)
      | none => if c == '.' then some 0 else none

/-- Embedding of `pathlib.PurePath.suffix` on a bare name: the substring from
the last dot, provided that dot is neither the first nor the last
character. -/
def pathSuffix (name : String) : String :=
  match rfindDot name.data with
  | some i =>
      if 0 < i && i < name.data.length - 1 then String.mk (name.data.drop i) else ""
  | none => ""

/-- Icon chosen for a file node (line 131). -/
def fileIcon (name : String) : String :=
  if pathSuffix name == ".py" then "🐍 " else "📄 "

/-- Insertion keeps list membership (up to permutation). -/
theorem insertSorted_perm (e : FSEntry) (l : List FSEntry) :
    (insertSorted e l).Perm (e :: l) := by
  induction l with
  | nil => simp [insertSorted]
  | cons x xs ih =>
    rw [insertSorted]
    by_cases hc : entryLe e x
    · rw [if_pos hc]
    · rw [if_neg hc]
      exact List.Perm.trans (ih.cons x) (List.Perm.swap e x xs)

/-- Sorting permutes the enumerated children. -/
theorem sortEntries_perm (l : List FSEntry) : (sortEntries l).Perm l := by
  induction l with
  | nil => simp [sortEntries]
  | cons x xs ih => exact (insertSorted_perm x (sortEntries xs)).trans (ih.cons x)

/-- Sorted output only contains enumerated children. -/
theorem mem_of_mem_sortEntries {a : FSEntry} {l : List FSEntry}
    (h : a ∈ sortEntries l) : a ∈ l :=
  (sortEntries_perm l).mem_iff.mp h

/-- Embedding of `walk_directory` (lines 67-132).  Arguments mirror the
source: the configuration carries `exclude_patterns`, `gitignore_spec`,
`git_root`, `show_hidden` and `max_depth`; `dirPath` is the absolute path of
`directory`; `entries` its children in enumeration order; `currentDepth` the
depth counter.  The body is the source in order: the depth guard, the stable
sort (dirs first, then lowercased name), and per child the hidden check, the
gitignore check, the exclusion check, then emission of a directory node with
a recursive call at `current_depth + 1`, or of a file node. -/
def walkDirectory (cfg : WalkConfig) (dirPath : List String)
    (entries : List FSEntry) (currentDepth : Nat) : List RNode :=
  if atMaxDepth cfg.maxDepth currentDepth then []
  else
    (sortEntries entries).attach.filterMap fun x =>
      if !cfg.showHidden && strStartsWith (FSEntry.name x.1) "." then none
      else if shouldIgnoreEntry cfg (dirPath ++ [FSEntry.name x.1]) then none
      else if shouldExcludeEntry cfg (FSEntry.name x.1) then none
      else
        match hx : x.1 with
        | .dir n cs =>
            some (RNode.mk n true (dirStyle n) none ""
              (walkDirectory cfg (dirPath ++ [n]) cs (currentDepth + 1)))
        | .file n sz =>
            some (RNode.mk n false "" (some sz) (fileIcon n) [])
termination_by sizeOf entries
decreasing_by
  have h1 : x.1 ∈ sortEntries entries := x.2
  have h2 := List.sizeOf_lt_of_mem (mem_of_mem_sortEntries h1)
  rw [hx] at h2
  simp at h2 ⊢
  omega

/-- Per-child processing of `walk_directory`, as a standalone function: the
three skip checks in source order followed by node emission.  `none` is a
`continue` in the source loop. -/
def walkStep (cfg : WalkConfig) (dirPath : List String) (currentDepth : Nat)
    (e : FSEntry) : Option RNode :=
  if !cfg.showHidden && strStartsWith (FSEntry.name e) "." then none
  else if shouldIgnoreEntry cfg (dirPath ++ [FSEntry.name e]) then none
  else if shouldExcludeEntry cfg (FSEntry.name e) then none
  else
    match e with
    | .dir n cs =>
        some (RNode.mk n true (dirStyle n) none ""
          (walkDirectory cfg (dirPath ++ [n]) cs (currentDepth + 1)))
    | .file n sz =>
        some (RNode.mk n false "" (some sz) (fileIcon n) [])

/-- Unfolding of the walker: a depth-guarded filter-map of the per-child step
over the sorted enumeration. -/
theorem walkDirectory_eq (cfg : WalkConfig) (dirPath : List String)
    (entries : List FSEntry) (currentDepth : Nat) :
    walkDirectory cfg dirPath entries currentDepth =
      if atMaxDepth cfg.maxDepth currentDepth then []
      else (sortEntries entries).filterMap (walkStep cfg dirPath currentDepth) := by
  rw [walkDirectory]
  by_cases hg : atMaxDepth cfg.maxDepth currentDepth
  · simp [hg]
  · rw [if_neg hg, if_neg hg]
    have h := List.attach_map_subtype_val (sortEntries entries)
    conv_rhs => rw [← h]
    rw [List.filterMap_map]
    apply List.filterMap_congr
    intro x _
    cases hx : x.1 with
    | file n s => simp [walkStep, Function.comp, hx]
    | dir n cs => simp [walkStep, Function.comp, hx]

/-- Ancestor directory as seen by `load_gitignore_patterns`: its absolute
path, the content lines of its `.gitignore` when that file exists, and, when
an entry named `.git` exists in it, whether that entry is a directory (the
source only tests existence; the directory flag lets claims about "a
directory named `.git`" be stated). -/
structure AncestorDir where
  path : List String
  gitignoreLines : Option (List String)
  gitEntry : Option Bool
deriving DecidableEq

/-- Result assembly of `load_gitignore_patterns` (lines 62-64): a compiled
rule set paired with the chosen root when any lines were collected, and
`(None, None)` otherwise. -/
def loadGitignoreFinish (patterns : List String) (gitRoot : Option (List String)) :
    Option PathSpec × Option (List String) :=
  if patterns.isEmpty then (none, none) else (some ⟨patterns⟩, gitRoot)

/-- Loop of `load_gitignore_patterns` (lines 42-60) over the remaining
ancestor chain, leaf to root, with the accumulated pattern lines.  Each
iteration appends the directory's `.gitignore` lines, then stops if an entry
named `.git` exists there (that directory becomes the git root), then stops
if the filesystem root is reached (the last chain element, where
`current_dir.parent == current_dir`), assigning the start directory as root
when patterns were found. -/
def loadGitignoreLoop (startPath : List String) :
    List AncestorDir → List String → Option PathSpec × Option (List String)
  | [], patterns => loadGitignoreFinish patterns none
  | d :: rest, patterns =>
      let patterns := patterns ++ d.gitignoreLines.getD []
      if d.gitEntry.isSome then loadGitignoreFinish patterns (some d.path)
      else if rest.isEmpty then
        loadGitignoreFinish patterns
          (if patterns.isEmpty then none else some startPath)
      else loadGitignoreLoop startPath rest patterns

/-- Embedding of `load_gitignore_patterns(directory)` (lines 30-64), where
`chain` is the ancestor chain of the start directory, leaf first, ending at
the filesystem root. -/
def loadGitignorePatterns (startPath : List String) (chain : List AncestorDir) :
    Option PathSpec × Option (List String) :=
  loadGitignoreLoop startPath chain []

/-- Observable state of the CLI target, plus the filesystem data the command
reads: the raw argument string, the two checks `dir_path.exists()` and
`dir_path.is_dir()`, the resolved path with its children, and the ancestor
chain used for gitignore resolution. -/
structure MainInput where
  dirArg : String
  targetIsPresent : Bool
  targetIsDir : Bool
  resolvedPath : List String
  entries : List FSEntry
  ancestors : List AncestorDir

/-- CLI flags of `main` that influence the tree (the `--links` flag only
changes label markup for the rendering collaborator). -/
structure MainFlags where
  exclude : Option (List String)
  depth : Option Nat
  showHidden : Bool
  gitignore : Bool

/-- Outcome of the command: an error exit with its code and standard-error
message and no tree produced, or the children of the printed root node. -/
inductive MainResult where
  | error (exitCode : Nat) (message : String)
  | ok (tree : List RNode)

/-- Embedding of `main` (lines 135-202): target validation with early error
exits, gitignore resolution when requested, then one walker invocation at
depth 0. -/
def mainCommand (fnm : String → String → Bool) (mF : PathSpec → String → Bool)
    (inp : MainInput) (flags : MainFlags) : MainResult :=
  if !inp.targetIsPresent then
    .error 1 ("Error: Directory '" ++ inp.dirArg ++ "' does not exist.")
  else if !inp.targetIsDir then
    .error 1 ("Error: '" ++ inp.dirArg ++ "' is not a directory.")
  else
    let gi := if flags.gitignore
      then loadGitignorePatterns inp.resolvedPath inp.ancestors
      else (none, none)
    .ok (walkDirectory
      ⟨fnm, mF, flags.exclude, gi.1, gi.2, flags.showHidden, flags.depth⟩
      inp.resolvedPath inp.entries 0)

/-- Nodes of a forest at a given relative depth: depth 0 is the forest
itself, and each further level moves to the concatenated children. -/
def nodesAtDepth : List RNode → Nat → List RNode
  | ns, 0 => ns
  | ns, d + 1 => nodesAtDepth (ns.flatMap RNode.children) d

/-- Name and directory flag of the nodes at a given depth. -/
def treeNamesAtDepth (ns : List RNode) (d : Nat) : List (String × Bool) :=
  (nodesAtDepth ns d).map fun n => (n.name, n.isDir)

/-- Name and directory flag of the filesystem entries at a given relative
depth below a directory whose children are given (depth 0 being those
children themselves). -/
def fsEntryNamesAtDepth : List FSEntry → Nat → List (String × Bool)
  | es, 0 => es.map fun e => (e.name, e.isDir)
  | es, d + 1 =>
      es.flatMap fun e =>
        match e with
        | .dir _ cs => fsEntryNamesAtDepth cs d
        | .file _ _ => []

/-- Walker configuration with every filter disabled (hidden entries shown, no
exclusion globs, no gitignore rule set), exposing the depth logic alone. -/
def noFilterCfg (m : Option Nat) : WalkConfig :=
  ⟨fun _ _ => false, fun _ _ => false, none, none, none, true, m⟩

/-- Walk of a root directory with depth limit `k` and no filters. -/
def walkNF (entries : List FSEntry) (k : Nat) : List RNode :=
  walkDirectory (noFilterCfg (some k)) [] entries 0

/-- Index of the first ancestor holding an entry named `.git`, if any. -/
def markerIdx (chain : List AncestorDir) : Option Nat :=
  chain.findIdx? fun d => d.gitEntry.isSome

/-- Ancestors actually scanned by the resolver: up to and including the first
marker directory, or the whole chain when there is none. -/
def scannedDirs (chain : List AncestorDir) : List AncestorDir :=
  match markerIdx chain with
  | some i => chain.take (i + 1)
  | none => chain

/-- Gitignore lines collected over the scanned ancestors, leaf to root. -/
def collectedLines (chain : List AncestorDir) : List String :=
  (scannedDirs chain).flatMap fun d => d.gitignoreLines.getD []

/-- Ignore root the resolver reports: none when no lines were collected,
otherwise the first marker directory, or the start directory when the
filesystem root was reached without a marker. -/
def resolvedRoot (startPath : List String) (chain : List AncestorDir) :
    Option (List String) :=
  if (collectedLines chain).isEmpty then none
  else
    match markerIdx chain with
    | some i => chain[i]?.map AncestorDir.path
    | none => some startPath

/-- Loop characterization: on a nonempty remaining chain the loop returns the
finish of the accumulated and newly collected lines, rooted at the first
marker, or at the start directory when no marker exists (none at all when
nothing was collected). -/
theorem loadGitignoreLoop_eq (startPath : List String) (chain : List AncestorDir)
    (acc : List String) (hne : chain ≠ []) :
    loadGitignoreLoop startPath chain acc =
      loadGitignoreFinish (acc ++ collectedLines chain)
        (match markerIdx chain with
         | some i => chain[i]?.map AncestorDir.path
         | none =>
             if (acc ++ collectedLines chain).isEmpty then none else some startPath) := by
  induction chain generalizing acc with
  | nil => exact absurd rfl hne
  | cons d rest ih =>
    rw [loadGitignoreLoop]
    by_cases hm : d.gitEntry.isSome
    · rw [if_pos hm]
      have hidx : markerIdx (d :: rest) = some 0 := by
        simp [markerIdx, List.findIdx?_cons, hm]
      simp only [hidx, List.getElem?_cons_zero, Option.map_some]
      have hscan : scannedDirs (d :: rest) = [d] := by
        simp [scannedDirs, hidx]
      simp [collectedLines, hscan]
    · rw [if_neg hm]
      have hidx : markerIdx (d :: rest) =
          (markerIdx rest).map (· + 1) := by
        simp [markerIdx, List.findIdx?_cons, hm]
      by_cases hrest : rest = []
      · subst hrest
        simp only [List.isEmpty_nil, if_pos rfl]
        have hscan : scannedDirs [d] = [d] := by
          simp [scannedDirs, markerIdx, List.findIdx?_cons, hm]
        simp [collectedLines, hscan, hidx, markerIdx, List.findIdx?_cons, hm,
          loadGitignoreFinish, List.append_assoc]
      · rw [if_neg (by simpa using hrest)]
        rw [ih _ hrest]
        have hscan : scannedDirs (d :: rest) = d :: scannedDirs rest := by
          cases hmr : markerIdx rest with
          | none => simp [scannedDirs, hidx, hmr]
          | some i => simp [scannedDirs, hidx, hmr, List.take_succ_cons]
        have hcoll : collectedLines (d :: rest) =
            d.gitignoreLines.getD [] ++ collectedLines rest := by
          simp [collectedLines, hscan]
        cases hmr : markerIdx rest with
        | none => simp [hidx, hmr, hcoll, List.append_assoc]
        | some i => simp [hidx, hmr, hcoll, List.append_assoc]

/-- Resolver characterization on any ancestor chain. -/
theorem loadGitignorePatterns_eq (startPath : List String)
    (chain : List AncestorDir) :
    loadGitignorePatterns startPath chain =
      (if (collectedLines chain).isEmpty then none else some ⟨collectedLines chain⟩,
       resolvedRoot startPath chain) := by
  cases hc : chain with
  | nil =>
    simp [loadGitignorePatterns, loadGitignoreLoop, loadGitignoreFinish,
      collectedLines, scannedDirs, markerIdx, resolvedRoot]
  | cons d rest =>
    rw [loadGitignorePatterns, loadGitignoreLoop_eq _ _ _ (by simp)]
    rw [← hc]
    simp only [List.nil_append]
    unfold resolvedRoot
    by_cases he : (collectedLines chain).isEmpty
    · cases hm : markerIdx chain with
      | none => simp [loadGitignoreFinish, he, hm]
      | some i => simp [loadGitignoreFinish, he, hm]
    · cases hm : markerIdx chain with
      | none => simp [loadGitignoreFinish, he, hm]
      | some i => simp [loadGitignoreFinish, he, hm]

/-- Marker index points at an existing chain element. -/
theorem markerIdx_getElem {chain : List AncestorDir} {i : Nat}
    (h : markerIdx chain = some i) : ∃ d, chain[i]? = some d := by
  induction chain generalizing i with
  | nil => simp [markerIdx] at h
  | cons d rest ih =>
    by_cases hm : d.gitEntry.isSome
    · have : markerIdx (d :: rest) = some 0 := by
        simp [markerIdx, List.findIdx?_cons, hm]
      rw [this] at h
      cases h
      exact ⟨d, by simp⟩
    · have hstep : markerIdx (d :: rest) = (markerIdx rest).map (· + 1) := by
        simp [markerIdx, List.findIdx?_cons, hm]
      rw [hstep] at h
      cases hmr : markerIdx rest with
      | none => rw [hmr] at h; exact absurd h (by simp)
      | some j =>
        rw [hmr] at h
        have h2 : j + 1 = i := by simpa using h
        subst h2
        simpa using ih hmr

/-- Claim C10: `load_gitignore_patterns` returns both components present or
both absent — a returned rule set always comes with a returned ignore root
and vice versa, so the walker's guard requiring both never sees a mixed
pair. -/
theorem claim10_resolver_pairing (startPath : List String)
    (chain : List AncestorDir) :
    (loadGitignorePatterns startPath chain).1.isSome =
      (loadGitignorePatterns startPath chain).2.isSome := by
  rw [loadGitignorePatterns_eq]
  by_cases he : (collectedLines chain).isEmpty
  · simp [he, resolvedRoot]
  · cases hm : markerIdx chain with
    | none => simp [he, resolvedRoot, hm]
    | some i =>
      obtain ⟨d, hd⟩ := markerIdx_getElem hm
      simp [he, resolvedRoot, hm, hd]

/-- Claim C4, the part that fails: the source stops at the first ancestor
containing ANY entry named `.git` (`(current_dir / ".git").exists()`), not
only a directory so named.  Here the start directory `r/s` holds a
`.gitignore` with one pattern, its parent `r` holds a plain FILE named
`.git`, and no ancestor holds a `.git` directory; the claim then requires
the ignore root to fall back to the start directory `r/s`, but the code
stops at `r` and reports `r` as the ignore root. -/
theorem claim4_counterexample :
    (∀ d ∈ [AncestorDir.mk ["r", "s"] (some ["build/"]) none,
            AncestorDir.mk ["r"] none (some false),
            AncestorDir.mk [] none none], d.gitEntry ≠ some true) ∧
    (loadGitignorePatterns ["r", "s"]
        [AncestorDir.mk ["r", "s"] (some ["build/"]) none,
         AncestorDir.mk ["r"] none (some false),
         AncestorDir.mk [] none none]).2 = some ["r"] ∧
    (["r"] : List String) ≠ ["r", "s"] := by
  refine ⟨by decide, ?_, by decide⟩
  simp [loadGitignorePatterns, loadGitignoreLoop, loadGitignoreFinish]

/-- Claim C4 (amended): `load_gitignore_patterns`, started at any directory,
stops at the first ancestor (including the start) containing an entry named
`.git` of any type — file or directory — and makes that ancestor the ignore
root; patterns are collected from the `.gitignore` files of exactly the
ancestors scanned up to that marker; if the filesystem root is reached
without such an entry, the ignore root is the original start directory when
any patterns were collected; and whenever no patterns were collected at all
it returns (absent, absent). -/
theorem claim4_resolver_contract (startPath : List String)
    (chain : List AncestorDir) :
    (¬(collectedLines chain).isEmpty = true →
        (loadGitignorePatterns startPath chain).1 = some ⟨collectedLines chain⟩) ∧
    (∀ i, markerIdx chain = some i → ¬(collectedLines chain).isEmpty = true →
        (loadGitignorePatterns startPath chain).2 =
          chain[i]?.map AncestorDir.path) ∧
    (markerIdx chain = none → ¬(collectedLines chain).isEmpty = true →
        (loadGitignorePatterns startPath chain).2 = some startPath) ∧
    ((collectedLines chain).isEmpty = true →
        loadGitignorePatterns startPath chain = (none, none)) := by
  rw [loadGitignorePatterns_eq]
  refine ⟨fun he => by simp [he], fun i hi he => ?_, fun hm he => ?_, fun he => ?_⟩
  · simp [resolvedRoot, he, hi]
  · simp [resolvedRoot, he, hm]
  · simp [resolvedRoot, he]

/-- Witness for C4 (amended): a two-ancestor chain whose parent holds a
`.git` directory and a `.gitignore`; the resolver stops there and reports it
as ignore root with the concatenated pattern lines. -/
theorem claim4_witness :
    (loadGitignorePatterns ["h", "w"]
        [AncestorDir.mk ["h", "w"] (some ["a.txt"]) none,
         AncestorDir.mk ["h"] (some ["b.txt"]) (some true),
         AncestorDir.mk [] none none]).1 = some ⟨["a.txt", "b.txt"]⟩ ∧
    (loadGitignorePatterns ["h", "w"]
        [AncestorDir.mk ["h", "w"] (some ["a.txt"]) none,
         AncestorDir.mk ["h"] (some ["b.txt"]) (some true),
         AncestorDir.mk [] none none]).2 = some ["h"] := by
  constructor
  · exact (claim4_resolver_contract ["h", "w"] _).1 (by decide)
  · exact ((claim4_resolver_contract ["h", "w"] _).2.1 1 (by decide) (by decide)).trans
      (by decide)

/-- Scanned directories are a prefix of the chain. -/
theorem mem_of_mem_scannedDirs {d : AncestorDir} {chain : List AncestorDir}
    (hd : d ∈ scannedDirs chain) : d ∈ chain := by
  unfold scannedDirs at hd
  cases hm : markerIdx chain with
  | some i => rw [hm] at hd; exact List.take_subset _ _ hd
  | none => rw [hm] at hd; exact hd

/-- No `.gitignore` anywhere on the chain means nothing is collected. -/
theorem collectedLines_eq_nil {chain : List AncestorDir}
    (h : ∀ d ∈ chain, d.gitignoreLines = none) : collectedLines chain = [] := by
  rw [collectedLines, List.flatMap_eq_nil_iff]
  intro d hd
  rw [h d (mem_of_mem_scannedDirs hd)]
  rfl

/-- Claim C6: when no `.gitignore` file exists in the start directory or any
ancestor up to the filesystem root, resolution returns (absent, absent) and
the command produces exactly the same tree with gitignore enabled as with it
disabled. -/
theorem claim6_gitignore_noop (fnm : String → String → Bool)
    (mF : PathSpec → String → Bool) (inp : MainInput)
    (ex : Option (List String)) (dep : Option Nat) (sh : Bool)
    (h : ∀ d ∈ inp.ancestors, d.gitignoreLines = none) :
    mainCommand fnm mF inp ⟨ex, dep, sh, true⟩ =
      mainCommand fnm mF inp ⟨ex, dep, sh, false⟩ := by
  have hload : loadGitignorePatterns inp.resolvedPath inp.ancestors = (none, none) := by
    rw [loadGitignorePatterns_eq]
    simp [resolvedRoot, collectedLines_eq_nil h]
  rw [mainCommand, mainCommand]
  by_cases h1 : inp.targetIsPresent
  · by_cases h2 : inp.targetIsDir
    · simp [h1, h2, hload]
    · simp [h1, h2]
  · simp [h1]

/-- Witness for C6 at a concrete input: one file and one subdirectory under
the target, a `.gitignore`-free two-directory ancestor chain, a depth limit
of 3 and an exclusion pattern configured. -/
theorem claim6_witness :
    mainCommand (fun _ _ => false) (fun _ _ => true)
        ⟨"proj", true, true, ["proj"],
         [FSEntry.file "a.py" 10, FSEntry.dir "sub" [FSEntry.file "c.json" 2]],
         [AncestorDir.mk ["proj"] none none, AncestorDir.mk [] none (some true)]⟩
        ⟨some ["*.txt"], some 3, false, true⟩ =
      mainCommand (fun _ _ => false) (fun _ _ => true)
        ⟨"proj", true, true, ["proj"],
         [FSEntry.file "a.py" 10, FSEntry.dir "sub" [FSEntry.file "c.json" 2]],
         [AncestorDir.mk ["proj"] none none, AncestorDir.mk [] none (some true)]⟩
        ⟨some ["*.txt"], some 3, false, false⟩ :=
  claim6_gitignore_noop (fun _ _ => false) (fun _ _ => true) _ _ _ _
    (by decide)

/-- Claim C9: a nonexistent target exits with code 1 and the message
`Error: Directory '<path>' does not exist.` on standard error; an existing
non-directory target exits with code 1 and `Error: '<path>' is not a
directory.`; in both cases the result carries no tree (the `error` outcome
is produced before any walker invocation). -/
theorem claim9_invalid_target (fnm : String → String → Bool)
    (mF : PathSpec → String → Bool) (inp : MainInput) (flags : MainFlags) :
    (inp.targetIsPresent = false →
        mainCommand fnm mF inp flags =
          .error 1 ("Error: Directory '" ++ inp.dirArg ++ "' does not exist.")) ∧
    (inp.targetIsPresent = true → inp.targetIsDir = false →
        mainCommand fnm mF inp flags =
          .error 1 ("Error: '" ++ inp.dirArg ++ "' is not a directory.")) := by
  constructor
  · intro h1
    rw [mainCommand]
    simp [h1]
  · intro h1 h2
    rw [mainCommand]
    simp [h1, h2]

/-- Witness for C9: both invalid-target shapes at concrete inputs. -/
theorem claim9_witness :
    mainCommand (fun _ _ => false) (fun _ _ => false)
        ⟨"/nonexistent/path", false, false, [], [], []⟩
        ⟨none, none, false, false⟩ =
      .error 1 "Error: Directory '/nonexistent/path' does not exist." ∧
    mainCommand (fun _ _ => false) (fun _ _ => false)
        ⟨"test.txt", true, false, ["tmp", "test.txt"], [], []⟩
        ⟨none, none, false, false⟩ =
      .error 1 "Error: 'test.txt' is not a directory." := by
  constructor
  · exact ((claim9_invalid_target _ _
      ⟨"/nonexistent/path", false, false, [], [], []⟩ _).1 rfl).trans (by rfl)
  · exact ((claim9_invalid_target _ _
      ⟨"test.txt", true, false, ["tmp", "test.txt"], [], []⟩ _).2 rfl rfl).trans (by rfl)

/-- Enumerated children reappear in the sorted list. -/
theorem mem_sortEntries_of_mem {a : FSEntry} {l : List FSEntry} (h : a ∈ l) :
    a ∈ sortEntries l :=
  (sortEntries_perm l).mem_iff.mpr h

/-- Per-child step is `none` exactly when one of the three skip checks of the
source loop fires: the hidden check, the gitignore check, the exclusion
check. -/
theorem walkStep_eq_none_iff (cfg : WalkConfig) (dirPath : List String)
    (currentDepth : Nat) (e : FSEntry) :
    walkStep cfg dirPath currentDepth e = none ↔
      ((!cfg.showHidden && strStartsWith (FSEntry.name e) ".") = true ∨
        shouldIgnoreEntry cfg (dirPath ++ [FSEntry.name e]) = true ∨
        shouldExcludeEntry cfg (FSEntry.name e) = true) := by
  rw [walkStep.eq_def]
  by_cases h1 : (!cfg.showHidden && strStartsWith (FSEntry.name e) ".") = true
  · simp [h1]
  · rw [if_neg h1]
    by_cases h2 : shouldIgnoreEntry cfg (dirPath ++ [FSEntry.name e]) = true
    · simp [h1, h2]
    · rw [if_neg h2]
      by_cases h3 : shouldExcludeEntry cfg (FSEntry.name e) = true
      · simp [h1, h2, h3]
      · rw [if_neg h3]
        cases e <;> simp [h1, h2, h3]

/-- A produced node carries the child's name and kind. -/
theorem walkStep_eq_some_key {cfg : WalkConfig} {dirPath : List String}
    {currentDepth : Nat} {e : FSEntry} {n : RNode}
    (h : walkStep cfg dirPath currentDepth e = some n) :
    n.name = e.name ∧ n.isDir = e.isDir := by
  rw [walkStep.eq_def] at h
  by_cases h1 : (!cfg.showHidden && strStartsWith (FSEntry.name e) ".") = true
  · simp [h1] at h
  · rw [if_neg h1] at h
    by_cases h2 : shouldIgnoreEntry cfg (dirPath ++ [FSEntry.name e]) = true
    · simp [h2] at h
    · rw [if_neg h2] at h
      by_cases h3 : shouldExcludeEntry cfg (FSEntry.name e) = true
      · simp [h3] at h
      · rw [if_neg h3] at h
        cases e with
        | file nm sz =>
          simp only [Option.some.injEq] at h
          subst h
          simp [RNode.name, RNode.isDir, FSEntry.name, FSEntry.isDir]
        | dir nm cs =>
          simp only [Option.some.injEq] at h
          subst h
          simp [RNode.name, RNode.isDir, FSEntry.name, FSEntry.isDir]

/-- A produced node's children are the recursive walk for a directory child,
and empty for a file child. -/
theorem walkStep_eq_some_children {cfg : WalkConfig} {dirPath : List String}
    {currentDepth : Nat} {e : FSEntry} {n : RNode}
    (h : walkStep cfg dirPath currentDepth e = some n) :
    (∀ nm cs, e = FSEntry.dir nm cs →
        n.children = walkDirectory cfg (dirPath ++ [nm]) cs (currentDepth + 1)) ∧
    (∀ nm sz, e = FSEntry.file nm sz → n.children = []) := by
  rw [walkStep.eq_def] at h
  by_cases h1 : (!cfg.showHidden && strStartsWith (FSEntry.name e) ".") = true
  · simp [h1] at h
  · rw [if_neg h1] at h
    by_cases h2 : shouldIgnoreEntry cfg (dirPath ++ [FSEntry.name e]) = true
    · simp [h2] at h
    · rw [if_neg h2] at h
      by_cases h3 : shouldExcludeEntry cfg (FSEntry.name e) = true
      · simp [h3] at h
      · rw [if_neg h3] at h
        constructor
        · rintro nm cs rfl
          simp only [Option.some.injEq] at h
          subst h
          rfl
        · rintro nm sz rfl
          simp only [Option.some.injEq] at h
          subst h
          rfl

/-- Either a directory child is skipped, or a node with the recursive walk as
children is produced. -/
theorem walkStep_dir_cases (cfg : WalkConfig) (dirPath : List String)
    (currentDepth : Nat) (nm : String) (cs : List FSEntry) :
    walkStep cfg dirPath currentDepth (FSEntry.dir nm cs) = none ∨
      walkStep cfg dirPath currentDepth (FSEntry.dir nm cs) =
        some (RNode.mk nm true (dirStyle nm) none ""
          (walkDirectory cfg (dirPath ++ [nm]) cs (currentDepth + 1))) := by
  rw [walkStep.eq_def]
  by_cases h1 : (!cfg.showHidden && strStartsWith (FSEntry.name (FSEntry.dir nm cs)) ".") = true
  · simp [h1]
  · rw [if_neg h1]
    by_cases h2 : shouldIgnoreEntry cfg (dirPath ++ [FSEntry.name (FSEntry.dir nm cs)]) = true
    · simp [h2]
    · rw [if_neg h2]
      by_cases h3 : shouldExcludeEntry cfg (FSEntry.name (FSEntry.dir nm cs)) = true
      · simp [h3]
      · rw [if_neg h3]
        right
        rfl

/-- Depth slicing of the empty forest. -/
theorem nodesAtDepth_nil (d : Nat) : nodesAtDepth [] d = [] := by
  induction d with
  | zero => rfl
  | succ d ih => simpa [nodesAtDepth] using ih

/-- Depth slicing distributes over concatenation. -/
theorem nodesAtDepth_append (l₁ l₂ : List RNode) (d : Nat) :
    nodesAtDepth (l₁ ++ l₂) d = nodesAtDepth l₁ d ++ nodesAtDepth l₂ d := by
  induction d generalizing l₁ l₂ with
  | zero => rfl
  | succ d ih => simp [nodesAtDepth, ih]

/-- Depth slicing distributes over a flat map. -/
theorem nodesAtDepth_flatMap {α : Type} (l : List α) (f : α → List RNode) (d : Nat) :
    nodesAtDepth (l.flatMap f) d = l.flatMap fun x => nodesAtDepth (f x) d := by
  induction l with
  | nil => simp [nodesAtDepth_nil]
  | cons a t ih => simp [List.flatMap_cons, nodesAtDepth_append, ih]

/-- Depth slicing peels from the bottom as well: the nodes one level further
down are the concatenated children of the nodes at the current level. -/
theorem nodesAtDepth_succ_eq (ns : List RNode) (d : Nat) :
    nodesAtDepth ns (d + 1) = (nodesAtDepth ns d).flatMap RNode.children := by
  induction d generalizing ns with
  | zero => rfl
  | succ d ih =>
    show nodesAtDepth (ns.flatMap RNode.children) (d + 1) = _
    rw [ih]
    rfl

/-- Node built for a child when every filter is disabled. -/
def nfChild (k : Nat) (dirPath : List String) (currentDepth : Nat) (e : FSEntry) :
    RNode :=
  match e with
  | .dir n cs =>
      RNode.mk n true (dirStyle n) none ""
        (walkDirectory (noFilterCfg (some k)) (dirPath ++ [n]) cs (currentDepth + 1))
  | .file n sz => RNode.mk n false "" (some sz) (fileIcon n) []

/-- With every filter disabled the per-child step always produces a node. -/
theorem walkStep_noFilter (k : Nat) (dirPath : List String) (currentDepth : Nat)
    (e : FSEntry) :
    walkStep (noFilterCfg (some k)) dirPath currentDepth e =
      some (nfChild k dirPath currentDepth e) := by
  cases e <;>
    simp [walkStep.eq_def, noFilterCfg, shouldIgnoreEntry, shouldExcludeEntry, nfChild]

/-- Below the depth limit the filterless walker maps `nfChild` over the
sorted enumeration. -/
theorem walkDirectory_noFilter_eq {k currentDepth : Nat} (dirPath : List String)
    (entries : List FSEntry) (h : currentDepth < k) :
    walkDirectory (noFilterCfg (some k)) dirPath entries currentDepth =
      (sortEntries entries).map (nfChild k dirPath currentDepth) := by
  rw [walkDirectory_eq]
  rw [if_neg (by simp [noFilterCfg, atMaxDepth]; omega)]
  rw [List.filterMap_congr fun e _ => walkStep_noFilter k dirPath currentDepth e]
  exact List.filterMap_eq_map _ ▸ rfl

/-- At or past the depth limit the walker returns no nodes at all. -/
theorem walkDirectory_noFilter_stop {k currentDepth : Nat} (dirPath : List String)
    (entries : List FSEntry) (h : k ≤ currentDepth) :
    walkDirectory (noFilterCfg (some k)) dirPath entries currentDepth = [] := by
  rw [walkDirectory_eq]
  rw [if_pos (by simp [noFilterCfg, atMaxDepth]; omega)]

/-- Name and kind of a filterless node. -/
theorem nfChild_key (k : Nat) (dirPath : List String) (currentDepth : Nat)
    (e : FSEntry) :
    (nfChild k dirPath currentDepth e).name = e.name ∧
      (nfChild k dirPath currentDepth e).isDir = e.isDir := by
  cases e <;> simp [nfChild, RNode.name, RNode.isDir, FSEntry.name, FSEntry.isDir]

/-- In the filterless walk, no nodes appear at any relative depth at or past
the configured limit minus the current depth. -/
theorem nodesAtDepth_walk_noFilter_nil {k : Nat} (d : Nat) :
    ∀ (entries : List FSEntry) (dirPath : List String) (currentDepth : Nat),
      k ≤ currentDepth + d →
      nodesAtDepth (walkDirectory (noFilterCfg (some k)) dirPath entries currentDepth) d
        = [] := by
  induction d with
  | zero =>
    intro es p c h
    rw [walkDirectory_noFilter_stop p es (by omega)]
    rfl
  | succ d ih =>
    intro es p c h
    by_cases hc : k ≤ c
    · rw [walkDirectory_noFilter_stop p es hc, nodesAtDepth_nil]
    · rw [walkDirectory_noFilter_eq p es (by omega)]
      show nodesAtDepth (((sortEntries es).map (nfChild k p c)).flatMap RNode.children) d = []
      rw [List.flatMap_map, nodesAtDepth_flatMap, List.flatMap_eq_nil_iff]
      intro e _
      cases e with
      | dir n cs =>
        show nodesAtDepth
          (walkDirectory (noFilterCfg (some k)) (p ++ [n]) cs (c + 1)) d = []
        exact ih cs (p ++ [n]) (c + 1) (by omega)
      | file n sz => simpa [nfChild, RNode.children] using nodesAtDepth_nil d

/-- In the filterless walk, strictly inside the depth window the nodes at
relative depth `d` are exactly (up to order) the filesystem entries at
relative depth `d`. -/
theorem treeNamesAtDepth_walk_noFilter {k : Nat} (d : Nat) :
    ∀ (entries : List FSEntry) (dirPath : List String) (currentDepth : Nat),
      currentDepth + d < k →
      (treeNamesAtDepth
          (walkDirectory (noFilterCfg (some k)) dirPath entries currentDepth) d).Perm
        (fsEntryNamesAtDepth entries d) := by
  induction d with
  | zero =>
    intro es p c h
    rw [walkDirectory_noFilter_eq p es (by omega)]
    show (((sortEntries es).map (nfChild k p c)).map fun n => (n.name, n.isDir)).Perm
      (es.map fun e => (e.name, e.isDir))
    rw [List.map_map]
    have hfun : ((fun n : RNode => (n.name, n.isDir)) ∘ nfChild k p c) =
        fun e : FSEntry => (e.name, e.isDir) := by
      funext e
      have := nfChild_key k p c e
      simp [Function.comp, this.1, this.2]
    rw [hfun]
    exact (sortEntries_perm es).map _
  | succ d ih =>
    intro es p c h
    rw [walkDirectory_noFilter_eq p es (by omega)]
    show ((nodesAtDepth
        (((sortEntries es).map (nfChild k p c)).flatMap RNode.children) d).map
          fun n => (n.name, n.isDir)).Perm _
    rw [List.flatMap_map, nodesAtDepth_flatMap, List.map_flatMap]
    have hperm1 := (sortEntries_perm es).flatMap_right
      fun e => (nodesAtDepth ((nfChild k p c e).children) d).map
        fun n => (n.name, n.isDir)
    refine hperm1.trans ?_
    show (es.flatMap _).Perm (es.flatMap _)
    apply List.Perm.flatMap_left
    intro e _
    cases e with
    | dir n cs =>
      show (treeNamesAtDepth
        (walkDirectory (noFilterCfg (some k)) (p ++ [n]) cs (c + 1)) d).Perm
        (fsEntryNamesAtDepth cs d)
      exact ih cs (p ++ [n]) (c + 1) (by omega)
    | file n sz =>
      simp [nfChild, RNode.children, nodesAtDepth_nil]

/-- Claim C1, the part that fails: with the depth-0 convention the claim
fixes ("depth 0 being the root's immediate children"), a depth limit of
`k = 0` would still have to show the root's immediate children (entries at
relative depth `0 ≤ k`), but the source returns from `walk_directory` before
emitting anything as soon as `current_depth >= max_depth`, so a limit of 0
(and in general limit `k`) shows nothing at depth `k`. -/
theorem claim1_counterexample :
    fsEntryNamesAtDepth [FSEntry.file "a.py" 7] 0 = [("a.py", false)] ∧
    walkNF [FSEntry.file "a.py" 7] 0 = [] := by
  constructor
  · rfl
  · exact walkDirectory_noFilter_stop [] _ (by omega)

/-- Claim C1 (amended): for every root directory and depth limit `k ≥ 0`
(filters disabled), the tree contains a node for every entry at relative
depth `≤ k - 1` — that is, strictly below `k` — and no node at any relative
depth `≥ k`; directory nodes at exactly depth `k - 1` are present but have
no children (depth 0 being the root's immediate children, so `k = 0` shows
nothing at all). -/
theorem claim1_depth_window (entries : List FSEntry) (k d : Nat) :
    (d < k →
        (treeNamesAtDepth (walkNF entries k) d).Perm (fsEntryNamesAtDepth entries d)) ∧
    (k ≤ d → nodesAtDepth (walkNF entries k) d = []) ∧
    (1 ≤ k → ∀ n ∈ nodesAtDepth (walkNF entries k) (k - 1), n.children = []) := by
  refine ⟨fun h => ?_, fun h => ?_, fun hk n hn => ?_⟩
  · exact treeNamesAtDepth_walk_noFilter d entries [] 0 (by omega)
  · exact nodesAtDepth_walk_noFilter_nil d entries [] 0 (by omega)
  · have hnil : nodesAtDepth (walkNF entries k) ((k - 1) + 1) = [] := by
      have : (k - 1) + 1 = k := by omega
      rw [this]
      exact nodesAtDepth_walk_noFilter_nil k entries [] 0 (by omega)
    rw [nodesAtDepth_succ_eq, List.flatMap_eq_nil_iff] at hnil
    exact hnil n hn

/-- Witness for C1 (amended) on the three-level tree of the repository's
depth test with limit 2: depth-0 and depth-1 entries are present, nothing
exists at depth 2, and the directory node at depth 1 is childless. -/
theorem claim1_witness :
    (treeNamesAtDepth
        (walkNF [FSEntry.dir "level1" [FSEntry.file "file1.txt" 1,
                   FSEntry.dir "level2" [FSEntry.file "file2.txt" 2]],
                 FSEntry.file "root_file.txt" 3] 2) 1).Perm
      (fsEntryNamesAtDepth [FSEntry.dir "level1" [FSEntry.file "file1.txt" 1,
                   FSEntry.dir "level2" [FSEntry.file "file2.txt" 2]],
                 FSEntry.file "root_file.txt" 3] 1) ∧
    nodesAtDepth (walkNF [FSEntry.dir "level1" [FSEntry.file "file1.txt" 1,
                   FSEntry.dir "level2" [FSEntry.file "file2.txt" 2]],
                 FSEntry.file "root_file.txt" 3] 2) 2 = [] ∧
    (∀ n ∈ nodesAtDepth (walkNF [FSEntry.dir "level1" [FSEntry.file "file1.txt" 1,
                   FSEntry.dir "level2" [FSEntry.file "file2.txt" 2]],
                 FSEntry.file "root_file.txt" 3] 2) 1, n.children = []) :=
  ⟨(claim1_depth_window _ 2 1).1 (by omega),
   (claim1_depth_window _ 2 2).2.1 (by omega),
   by
     have h := (claim1_depth_window [FSEntry.dir "level1" [FSEntry.file "file1.txt" 1,
                   FSEntry.dir "level2" [FSEntry.file "file2.txt" 2]],
                 FSEntry.file "root_file.txt" 3] 2 1).2.2 (by omega)
     simpa using h⟩

/-- Reference walker without any depth guard: identical to `walkDirectory`
except that the depth test at the top is removed and no counter exists.
Recursion is bounded only by the finite filesystem subtree. -/
def fullWalk (cfg : WalkConfig) (dirPath : List String)
    (entries : List FSEntry) : List RNode :=
  (sortEntries entries).attach.filterMap fun x =>
    if !cfg.showHidden && strStartsWith (FSEntry.name x.1) "." then none
    else if shouldIgnoreEntry cfg (dirPath ++ [FSEntry.name x.1]) then none
    else if shouldExcludeEntry cfg (FSEntry.name x.1) then none
    else
      match hx : x.1 with
      | .dir n cs =>
          some (RNode.mk n true (dirStyle n) none ""
            (fullWalk cfg (dirPath ++ [n]) cs))
      | .file n sz =>
          some (RNode.mk n false "" (some sz) (fileIcon n) [])
termination_by sizeOf entries
decreasing_by
  have h1 : x.1 ∈ sortEntries entries := x.2
  have h2 := List.sizeOf_lt_of_mem (mem_of_mem_sortEntries h1)
  rw [hx] at h2
  simp at h2 ⊢
  omega

/-- Per-child step of the guardless walker. -/
def fullStep (cfg : WalkConfig) (dirPath : List String) (e : FSEntry) :
    Option RNode :=
  if !cfg.showHidden && strStartsWith (FSEntry.name e) "." then none
  else if shouldIgnoreEntry cfg (dirPath ++ [FSEntry.name e]) then none
  else if shouldExcludeEntry cfg (FSEntry.name e) then none
  else
    match e with
    | .dir n cs =>
        some (RNode.mk n true (dirStyle n) none "" (fullWalk cfg (dirPath ++ [n]) cs))
    | .file n sz =>
        some (RNode.mk n false "" (some sz) (fileIcon n) [])

/-- Unfolding of the guardless walker as a filter-map. -/
theorem fullWalk_eq (cfg : WalkConfig) (dirPath : List String)
    (entries : List FSEntry) :
    fullWalk cfg dirPath entries =
      (sortEntries entries).filterMap (fullStep cfg dirPath) := by
  rw [fullWalk]
  have h := List.attach_map_subtype_val (sortEntries entries)
  conv_rhs => rw [← h]
  rw [List.filterMap_map]
  apply List.filterMap_congr
  intro x _
  cases hx : x.1 with
  | file n s => simp [fullStep, Function.comp, hx]
  | dir n cs => simp [fullStep, Function.comp, hx]

/-- With `max_depth` absent the walker never truncates: at every counter
value it agrees with the guardless reference walker. -/
theorem walkDirectory_none_eq_fullWalk {cfg : WalkConfig}
    (h : cfg.maxDepth = none) :
    ∀ (entries : List FSEntry) (dirPath : List String) (currentDepth : Nat),
      walkDirectory cfg dirPath entries currentDepth = fullWalk cfg dirPath entries := by
  suffices H : ∀ (N : Nat) (entries : List FSEntry) (dirPath : List String)
      (currentDepth : Nat), sizeOf entries < N →
      walkDirectory cfg dirPath entries currentDepth = fullWalk cfg dirPath entries by
    intro es p c
    exact H (sizeOf es + 1) es p c (by omega)
  intro N
  induction N with
  | zero => intro es p c hlt; omega
  | succ N ih =>
    intro es p c hlt
    rw [walkDirectory_eq, fullWalk_eq, h]
    rw [if_neg (by simp [atMaxDepth])]
    apply List.filterMap_congr
    intro e he
    cases e with
    | file nm sz => simp [walkStep.eq_def, fullStep]
    | dir nm cs =>
      have hmem := mem_of_mem_sortEntries he
      have hsz := List.sizeOf_lt_of_mem hmem
      have hcs : sizeOf cs < N := by
        simp at hsz
        omega
      rw [walkStep.eq_def, fullStep]
      simp only [FSEntry.name]
      rw [ih cs (p ++ [nm]) (c + 1) hcs]

/-- Claim C2: with `max_depth` absent the walker recurses without bound (it
equals the guardless reference walker at every counter value); with
`max_depth = m` present, a call with `current_depth ≥ m` returns before
emitting anything, a call with `current_depth < m` performs the enumeration,
and during such an executing enumeration every directory child that the
filters let through is emitted as a node whose children are exactly the
recursive call at `current_depth + 1` — that recursive call being suppressed
to the empty enumeration precisely when `current_depth + 1 ≥ m`, and
performing its own full enumeration when `current_depth + 1 < m`. -/
theorem claim2_depth_semantics (cfg : WalkConfig) (dirPath : List String)
    (entries : List FSEntry) (currentDepth : Nat) :
    (cfg.maxDepth = none →
        walkDirectory cfg dirPath entries currentDepth = fullWalk cfg dirPath entries) ∧
    (∀ m, cfg.maxDepth = some m →
      (m ≤ currentDepth → walkDirectory cfg dirPath entries currentDepth = []) ∧
      (currentDepth < m →
        walkDirectory cfg dirPath entries currentDepth =
          (sortEntries entries).filterMap (walkStep cfg dirPath currentDepth)) ∧
      (currentDepth < m → ∀ nm cs, FSEntry.dir nm cs ∈ entries →
        walkStep cfg dirPath currentDepth (FSEntry.dir nm cs) ≠ none →
        (RNode.mk nm true (dirStyle nm) none ""
            (walkDirectory cfg (dirPath ++ [nm]) cs (currentDepth + 1)) ∈
          walkDirectory cfg dirPath entries currentDepth) ∧
        (m ≤ currentDepth + 1 →
          walkDirectory cfg (dirPath ++ [nm]) cs (currentDepth + 1) = []) ∧
        (currentDepth + 1 < m →
          walkDirectory cfg (dirPath ++ [nm]) cs (currentDepth + 1) =
            (sortEntries cs).filterMap (walkStep cfg (dirPath ++ [nm]) (currentDepth + 1))))) := by
  constructor
  · intro h
    exact walkDirectory_none_eq_fullWalk h entries dirPath currentDepth
  · intro m hm
    refine ⟨fun h => ?_, fun h => ?_, fun h nm cs hmem hstep => ?_⟩
    · rw [walkDirectory_eq, if_pos (by simp [hm, atMaxDepth]; omega)]
    · rw [walkDirectory_eq, if_neg (by simp [hm, atMaxDepth]; omega)]
    · have hsome := walkStep_dir_cases cfg dirPath currentDepth nm cs
      rcases hsome with hnone | hsome
      · exact absurd hnone hstep
      · refine ⟨?_, fun h2 => ?_, fun h2 => ?_⟩
        · rw [walkDirectory_eq, if_neg (by simp [hm, atMaxDepth]; omega)]
          exact List.mem_filterMap.mpr
            ⟨FSEntry.dir nm cs, mem_sortEntries_of_mem hmem, hsome⟩
        · rw [walkDirectory_eq, if_pos (by simp [hm, atMaxDepth]; omega)]
        · rw [walkDirectory_eq, if_neg (by simp [hm, atMaxDepth]; omega)]

/-- Witness for C2: a surviving subdirectory at the boundary of limit 1 is
emitted with empty children, and with no limit the walker equals the
guardless walker. -/
theorem claim2_witness :
    walkDirectory (noFilterCfg none) [] [FSEntry.dir "sub" [FSEntry.file "c" 1]] 0 =
      fullWalk (noFilterCfg none) [] [FSEntry.dir "sub" [FSEntry.file "c" 1]] ∧
    (RNode.mk "sub" true (dirStyle "sub") none ""
        (walkDirectory (noFilterCfg (some 1)) ["sub"] [FSEntry.file "c" 1] 1) ∈
      walkDirectory (noFilterCfg (some 1)) [] [FSEntry.dir "sub" [FSEntry.file "c" 1]] 0) ∧
    walkDirectory (noFilterCfg (some 1)) ["sub"] [FSEntry.file "c" 1] 1 = [] := by
  refine ⟨(claim2_depth_semantics (noFilterCfg none) [] _ 0).1 rfl, ?_, ?_⟩
  · exact (((claim2_depth_semantics (noFilterCfg (some 1)) [] _ 0).2 1 rfl).2.2
      (by omega) "sub" [FSEntry.file "c" 1] (List.mem_singleton.mpr rfl)
      (by simp [walkStep_noFilter])).1
  · exact (((claim2_depth_semantics (noFilterCfg (some 1)) [] _ 0).2 1 rfl).2.2
      (by omega) "sub" [FSEntry.file "c" 1] (List.mem_singleton.mpr rfl)
      (by simp [walkStep_noFilter])).2.1 (by omega)

/-- With `show_hidden=false` no node anywhere in the produced forest has a
name starting with a dot. -/
theorem walk_no_hidden_names {cfg : WalkConfig} (h : cfg.showHidden = false)
    (d : Nat) :
    ∀ (entries : List FSEntry) (dirPath : List String) (currentDepth : Nat)
      (n : RNode), n ∈ nodesAtDepth (walkDirectory cfg dirPath entries currentDepth) d →
      strStartsWith n.name "." = false := by
  induction d with
  | zero =>
    intro es p c n hn
    rw [walkDirectory_eq] at hn
    by_cases hg : atMaxDepth cfg.maxDepth c
    · rw [if_pos hg] at hn
      simp [nodesAtDepth] at hn
    · rw [if_neg hg] at hn
      obtain ⟨e, _, hstep⟩ := List.mem_filterMap.mp hn
      have hname := (walkStep_eq_some_key hstep).1
      by_cases hdot : strStartsWith (FSEntry.name e) "."
      · exfalso
        have : walkStep cfg p c e = none :=
          (walkStep_eq_none_iff cfg p c e).mpr (Or.inl (by simp [h, hdot]))
        rw [this] at hstep
        exact Option.noConfusion hstep
      · rw [hname]
        exact Bool.of_not_eq_true hdot
  | succ d ih =>
    intro es p c n hn
    show strStartsWith n.name "." = false
    rw [show nodesAtDepth (walkDirectory cfg p es c) (d + 1) =
      nodesAtDepth ((walkDirectory cfg p es c).flatMap RNode.children) d from rfl] at hn
    rw [nodesAtDepth_flatMap] at hn
    obtain ⟨x, hx, hnx⟩ := List.mem_flatMap.mp hn
    rw [walkDirectory_eq] at hx
    by_cases hg : atMaxDepth cfg.maxDepth c
    · rw [if_pos hg] at hx
      simp at hx
    · rw [if_neg hg] at hx
      obtain ⟨e, _, hstep⟩ := List.mem_filterMap.mp hx
      have hch := walkStep_eq_some_children hstep
      cases e with
      | dir nm cs =>
        rw [hch.1 nm cs rfl] at hnx
        exact ih cs (p ++ [nm]) (c + 1) n hnx
      | file nm sz =>
        rw [hch.2 nm sz rfl, nodesAtDepth_nil] at hnx
        exact absurd hnx (List.not_mem_nil n)

/-- Claim C5: with `show_hidden=false` no emitted node at any depth has a
name starting with a dot — hidden entries are skipped with no node and no
recursion; with `show_hidden=true` the hidden check never fires, so a child
is skipped exactly when the gitignore check or the exclusion check fires
(the depth guard, which never unlists an enumerated entry, aside). -/
theorem claim5_hidden_policy (cfg : WalkConfig) (dirPath : List String)
    (entries : List FSEntry) (currentDepth d : Nat) (e : FSEntry) :
    (cfg.showHidden = false →
        ∀ n ∈ nodesAtDepth (walkDirectory cfg dirPath entries currentDepth) d,
          strStartsWith n.name "." = false) ∧
    (cfg.showHidden = true →
        (walkStep cfg dirPath currentDepth e = none ↔
          (shouldIgnoreEntry cfg (dirPath ++ [FSEntry.name e]) = true ∨
            shouldExcludeEntry cfg (FSEntry.name e) = true))) := by
  constructor
  · intro h n hn
    exact walk_no_hidden_names h d entries dirPath currentDepth n hn
  · intro h
    rw [walkStep_eq_none_iff]
    simp [h]

/-- Witness for C5: a hidden and a visible file; with hiding on, every node
of the walk has a dot-free name, and with hiding on the per-child step skips
the hidden file while keeping the visible one; with hiding off the step
keeps a hidden file. -/
theorem claim5_witness :
    (∀ n ∈ nodesAtDepth (walkDirectory
        ⟨fun _ _ => false, fun _ _ => false, none, none, none, false, none⟩
        [] [FSEntry.file ".hidden.txt" 6, FSEntry.file "visible.txt" 7] 0) 0,
      strStartsWith n.name "." = false) ∧
    (walkStep ⟨fun _ _ => false, fun _ _ => false, none, none, none, true, none⟩
        [] 0 (FSEntry.file ".hidden.txt" 6) = none ↔
      (shouldIgnoreEntry
          ⟨fun _ _ => false, fun _ _ => false, none, none, none, true, none⟩
          [FSEntry.name (FSEntry.file ".hidden.txt" 6)] = true ∨
        shouldExcludeEntry
          ⟨fun _ _ => false, fun _ _ => false, none, none, none, true, none⟩
          (FSEntry.name (FSEntry.file ".hidden.txt" 6)) = true)) :=
  ⟨(claim5_hidden_policy _ [] _ 0 0 (FSEntry.file ".hidden.txt" 6)).1 rfl,
   by
     have h := (claim5_hidden_policy
       ⟨fun _ _ => false, fun _ _ => false, none, none, none, true, none⟩
       [] [] 0 0 (FSEntry.file ".hidden.txt" 6)).2 rfl
     simpa using h⟩

/-- Claim C7: an entry is hidden by the exclusion filter exactly when its
bare name matches at least one configured pattern under the (abstract) glob
matcher; the per-child step with no other filter firing skips exactly those
entries; and the children hidden by two patterns together are exactly the
union of those each pattern hides alone. -/
theorem claim7_exclusion_semantics (cfg : WalkConfig) (dirPath : List String)
    (currentDepth : Nat) (e : FSEntry) (ps : List String) (name p1 p2 : String)
    (f : String → String → Bool) (mF : PathSpec → String → Bool)
    (gs : Option PathSpec) (gr : Option (List String)) (sh : Bool)
    (m : Option Nat) :
    (cfg.excludePatterns = some ps →
        (shouldExcludeEntry cfg name = true ↔ ∃ q ∈ ps, cfg.fnmatchFn name q = true)) ∧
    (cfg.excludePatterns = some ps →
        (!cfg.showHidden && strStartsWith (FSEntry.name e) ".") = false →
        shouldIgnoreEntry cfg (dirPath ++ [FSEntry.name e]) = false →
        (walkStep cfg dirPath currentDepth e = none ↔
          ∃ q ∈ ps, cfg.fnmatchFn (FSEntry.name e) q = true)) ∧
    shouldExcludeEntry ⟨f, mF, some [p1, p2], gs, gr, sh, m⟩ name =
      (shouldExcludeEntry ⟨f, mF, some [p1], gs, gr, sh, m⟩ name ||
        shouldExcludeEntry ⟨f, mF, some [p2], gs, gr, sh, m⟩ name) := by
  refine ⟨fun hps => ?_, fun hps hdot hign => ?_, ?_⟩
  · cases ps with
    | nil => simp [shouldExcludeEntry, hps]
    | cons q qs => simp [shouldExcludeEntry, hps]
  · rw [walkStep_eq_none_iff, hdot, hign]
    simp only [Bool.false_eq_true, false_or]
    cases ps with
    | nil => simp [shouldExcludeEntry, hps]
    | cons q qs => simp [shouldExcludeEntry, hps]
  · simp [shouldExcludeEntry]

/-- Witness for C7 on the spec's scenario: with patterns `*.txt`, a name
matches exactly when the matcher accepts it (instantiated with a
suffix-check matcher), and the step skips `b.txt` while the union equation
holds at concrete patterns. -/
theorem claim7_witness :
    (shouldExcludeEntry
        ⟨fun n p => p == "*.txt" && n.endsWith ".txt", fun _ _ => false,
          some ["*.txt"], none, none, false, none⟩ "b.txt" = true ↔
      ∃ q ∈ ["*.txt"],
        (fun n p => p == "*.txt" && n.endsWith ".txt") "b.txt" q = true) ∧
    (walkStep ⟨fun n p => p == "*.txt" && n.endsWith ".txt", fun _ _ => false,
          some ["*.txt"], none, none, false, none⟩ [] 0
        (FSEntry.file "b.txt" 5) = none ↔
      ∃ q ∈ ["*.txt"],
        (fun n p => p == "*.txt" && n.endsWith ".txt")
          (FSEntry.name (FSEntry.file "b.txt" 5)) q = true) := by
  constructor
  · exact (claim7_exclusion_semantics
      ⟨fun n p => p == "*.txt" && n.endsWith ".txt", fun _ _ => false,
        some ["*.txt"], none, none, false, none⟩ [] 0 (FSEntry.file "b.txt" 5)
      ["*.txt"] "b.txt" "x" "y" (fun _ _ => false) (fun _ _ => false)
      none none false none).1 rfl
  · exact (claim7_exclusion_semantics
      ⟨fun n p => p == "*.txt" && n.endsWith ".txt", fun _ _ => false,
        some ["*.txt"], none, none, false, none⟩ [] 0 (FSEntry.file "b.txt" 5)
      ["*.txt"] "b.txt" "x" "y" (fun _ _ => false) (fun _ _ => false)
      none none false none).2.1 rfl (by decide)
      (by simp [shouldIgnoreEntry])

/-- Claim C8: with a rule set and an ignore root both present, a child whose
path is not under the ignore root (a failing `relative_to`) does not abort
the walk — the gitignore check reports no match for that entry only, and the
child is skipped exactly when the hidden or exclusion check fires; when
`relative_to` succeeds and the rule set matches the relative path, the child
is skipped entirely. -/
theorem claim8_relative_to_failure (cfg : WalkConfig) (dirPath : List String)
    (currentDepth : Nat) (e : FSEntry) (s : PathSpec) (r : List String)
    (h1 : cfg.gitignoreSpec = some s) (h2 : cfg.gitRoot = some r) :
    (relativeTo (dirPath ++ [FSEntry.name e]) r = none →
        shouldIgnoreEntry cfg (dirPath ++ [FSEntry.name e]) = false ∧
        (walkStep cfg dirPath currentDepth e = none ↔
          ((!cfg.showHidden && strStartsWith (FSEntry.name e) ".") = true ∨
            shouldExcludeEntry cfg (FSEntry.name e) = true))) ∧
    (∀ rel, relativeTo (dirPath ++ [FSEntry.name e]) r = some rel →
        cfg.matchFile s (pathStr rel) = true →
        walkStep cfg dirPath currentDepth e = none) := by
  constructor
  · intro hfail
    have hign : shouldIgnoreEntry cfg (dirPath ++ [FSEntry.name e]) = false := by
      rw [shouldIgnoreEntry, h1, h2]
      show (match relativeTo (dirPath ++ [FSEntry.name e]) r with
        | some rel => cfg.matchFile s (pathStr rel)
        | none => false) = false
      rw [hfail]
    refine ⟨hign, ?_⟩
    rw [walkStep_eq_none_iff, hign]
    simp
  · intro rel hrel hmatch
    have hign : shouldIgnoreEntry cfg (dirPath ++ [FSEntry.name e]) = true := by
      rw [shouldIgnoreEntry, h1, h2]
      show (match relativeTo (dirPath ++ [FSEntry.name e]) r with
        | some rel => cfg.matchFile s (pathStr rel)
        | none => false) = true
      rw [hrel]
      exact hmatch
    exact (walkStep_eq_none_iff cfg dirPath currentDepth e).mpr (Or.inr (Or.inl hign))

/-- Witness for C8: with ignore root `r` and a child path outside it the
check is skipped and the entry survives sans other filters; with a child
under the root and an always-matching rule set the entry is skipped. -/
theorem claim8_witness :
    (shouldIgnoreEntry
        ⟨fun _ _ => false, fun _ _ => true, none, some ⟨["*"]⟩, some ["r"], true, none⟩
        (["q"] ++ [FSEntry.name (FSEntry.file "a" 1)]) = false ∧
      (walkStep ⟨fun _ _ => false, fun _ _ => true, none, some ⟨["*"]⟩, some ["r"],
          true, none⟩ ["q"] 0 (FSEntry.file "a" 1) = none ↔
        ((!(true : Bool) && strStartsWith (FSEntry.name (FSEntry.file "a" 1)) ".") = true ∨
          shouldExcludeEntry ⟨fun _ _ => false, fun _ _ => true, none, some ⟨["*"]⟩,
            some ["r"], true, none⟩ (FSEntry.name (FSEntry.file "a" 1)) = true))) ∧
    walkStep ⟨fun _ _ => false, fun _ _ => true, none, some ⟨["*"]⟩, some ["r"],
        true, none⟩ ["r"] 0 (FSEntry.file "a" 1) = none := by
  constructor
  · exact (claim8_relative_to_failure
      ⟨fun _ _ => false, fun _ _ => true, none, some ⟨["*"]⟩, some ["r"], true, none⟩
      ["q"] 0 (FSEntry.file "a" 1) ⟨["*"]⟩ ["r"] rfl rfl).1 (by decide)
  · exact (claim8_relative_to_failure
      ⟨fun _ _ => false, fun _ _ => true, none, some ⟨["*"]⟩, some ["r"], true, none⟩
      ["r"] 0 (FSEntry.file "a" 1) ⟨["*"]⟩ ["r"] rfl rfl).2 ["a"] (by decide) rfl

/-- Totality of the code-point-list comparison. -/
theorem natListLe_total (x y : List Nat) :
    natListLe x y = true ∨ natListLe y x = true := by
  induction x generalizing y with
  | nil => left; rfl
  | cons a as ih =>
    cases y with
    | nil => right; rfl
    | cons b bs =>
      by_cases hab : a < b
      · left; simp [natListLe, hab]
      · by_cases hba : b < a
        · right; simp [natListLe, hba]
        · have heq : a = b := by omega
          subst heq
          rcases ih bs with h | h
          · left; simp [natListLe, h]
          · right; simp [natListLe, h]

/-- Transitivity of the code-point-list comparison. -/
theorem natListLe_trans {x y z : List Nat} (h1 : natListLe x y = true)
    (h2 : natListLe y z = true) : natListLe x z = true := by
  induction x generalizing y z with
  | nil => rfl
  | cons a as ih =>
    cases y with
    | nil => simp [natListLe] at h1
    | cons b bs =>
      cases z with
      | nil => simp [natListLe] at h2
      | cons c cs =>
        simp only [natListLe, Bool.or_eq_true, Bool.and_eq_true, decide_eq_true_eq,
          beq_iff_eq] at h1 h2 ⊢
        rcases h1 with h1 | ⟨h1e, h1r⟩
        · rcases h2 with h2 | ⟨h2e, h2r⟩
          · left; omega
          · left; omega
        · rcases h2 with h2 | ⟨h2e, h2r⟩
          · left; omega
          · right; exact ⟨by omega, ih h1r h2r⟩

/-- Anti-symmetry of the code-point-list comparison. -/
theorem natListLe_antisymm {x y : List Nat} (h1 : natListLe x y = true)
    (h2 : natListLe y x = true) : x = y := by
  induction x generalizing y with
  | nil =>
    cases y with
    | nil => rfl
    | cons b bs => simp [natListLe] at h2
  | cons a as ih =>
    cases y with
    | nil => simp [natListLe] at h1
    | cons b bs =>
      simp only [natListLe, Bool.or_eq_true, Bool.and_eq_true, decide_eq_true_eq,
        beq_iff_eq] at h1 h2
      rcases h1 with h1 | ⟨h1e, h1r⟩
      · rcases h2 with h2 | ⟨h2e, h2r⟩
        · omega
        · omega
      · rcases h2 with h2 | ⟨h2e, h2r⟩
        · omega
        · rw [h1e, ih h1r h2r]

/-- Sort key of an entry, `(path.is_file(), path.name.lower())`. -/
def entryKey (e : FSEntry) : Bool × List Nat :=
  (e.isFile, lowerChars e.name)

/-- Totality of the entry comparison. -/
theorem entryLe_total (a b : FSEntry) : entryLe a b = true ∨ entryLe b a = true := by
  rcases natListLe_total (lowerChars a.name) (lowerChars b.name) with h | h <;>
    cases ha : a.isFile <;> cases hb : b.isFile <;>
      simp [entryLe, ha, hb, h]

/-- Transitivity of the entry comparison. -/
theorem entryLe_trans {a b c : FSEntry} (h1 : entryLe a b = true)
    (h2 : entryLe b c = true) : entryLe a c = true := by
  cases ha : a.isFile <;> cases hb : b.isFile <;> cases hc : c.isFile <;>
    simp [entryLe, ha, hb, hc] at h1 h2 ⊢ <;>
    exact natListLe_trans h1 h2

/-- Mutually comparable entries share their sort key. -/
theorem entryLe_antisymm_key {a b : FSEntry} (h1 : entryLe a b = true)
    (h2 : entryLe b a = true) : entryKey a = entryKey b := by
  cases ha : a.isFile <;> cases hb : b.isFile <;>
    simp [entryLe, ha, hb] at h1 h2 <;>
    simp [entryKey, ha, hb, natListLe_antisymm h1 h2]

/-- Membership after insertion. -/
theorem mem_insertSorted {a e : FSEntry} {l : List FSEntry}
    (h : a ∈ insertSorted e l) : a = e ∨ a ∈ l := by
  have := (insertSorted_perm e l).mem_iff.mp h
  simpa using this

/-- Inserting into a sorted list keeps it sorted. -/
theorem insertSorted_pairwise {e : FSEntry} {l : List FSEntry}
    (h : l.Pairwise fun a b => entryLe a b = true) :
    (insertSorted e l).Pairwise fun a b => entryLe a b = true := by
  induction l with
  | nil => simp [insertSorted]
  | cons x xs ih =>
    obtain ⟨hx, hxs⟩ := List.pairwise_cons.mp h
    rw [insertSorted]
    by_cases hc : entryLe e x
    · rw [if_pos hc]
      refine List.pairwise_cons.mpr ⟨?_, h⟩
      intro z hz
      rcases List.mem_cons.mp hz with rfl | hz
      · exact hc
      · exact entryLe_trans hc (hx z hz)
    · rw [if_neg hc]
      refine List.pairwise_cons.mpr ⟨?_, ih hxs⟩
      intro z hz
      rcases mem_insertSorted hz with rfl | hz
      · rcases entryLe_total x z with hxz | hzx
        · exact hxz
        · exact absurd hzx hc
      · exact hx z hz

/-- The embedded sort produces a list sorted by the source's key. -/
theorem sortEntries_pairwise (l : List FSEntry) :
    (sortEntries l).Pairwise fun a b => entryLe a b = true := by
  induction l with
  | nil => simp [sortEntries]
  | cons x xs ih => exact insertSorted_pairwise ih

/-- Node-level mirror of the traversal order: directory nodes before file
nodes, then case-insensitive ascending names. -/
def nodeLe (a b : RNode) : Bool :=
  (a.isDir && !b.isDir) ||
    (a.isDir == b.isDir && natListLe (lowerChars a.name) (lowerChars b.name))

/-- Kind projections agree. -/
theorem isDir_eq_not_isFile (e : FSEntry) : e.isDir = !e.isFile := by
  cases e <;> rfl

/-- The per-child step turns entry order into node order. -/
theorem walkStep_le {cfg : WalkConfig} {dirPath : List String} {currentDepth : Nat}
    {a b : FSEntry} {n n' : RNode} (hab : entryLe a b = true)
    (ha : walkStep cfg dirPath currentDepth a = some n)
    (hb : walkStep cfg dirPath currentDepth b = some n') : nodeLe n n' = true := by
  obtain ⟨han, had⟩ := walkStep_eq_some_key ha
  obtain ⟨hbn, hbd⟩ := walkStep_eq_some_key hb
  rw [nodeLe, han, hbn, had, hbd, isDir_eq_not_isFile, isDir_eq_not_isFile]
  rw [entryLe] at hab
  cases hfa : a.isFile <;> cases hfb : b.isFile <;>
    simp [hfa, hfb] at hab ⊢ <;> exact hab

/-- Every forest the walker emits lists directory nodes before file nodes
and is case-insensitively nondecreasing inside each kind. -/
theorem walk_pairwise (cfg : WalkConfig) (dirPath : List String)
    (entries : List FSEntry) (currentDepth : Nat) :
    (walkDirectory cfg dirPath entries currentDepth).Pairwise
      fun a b => nodeLe a b = true := by
  rw [walkDirectory_eq]
  by_cases hg : atMaxDepth cfg.maxDepth currentDepth
  · rw [if_pos hg]; exact List.Pairwise.nil
  · rw [if_neg hg]
    refine List.Pairwise.filterMap _ ?_ (sortEntries_pairwise entries)
    intro a a' hle n hn n' hn'
    exact walkStep_le hle hn hn'

/-- A permutation that is sorted on both sides and has pairwise distinct
keys is an equality. -/
theorem sorted_perm_distinct_eq :
    ∀ {l₁ l₂ : List FSEntry}, l₁.Perm l₂ →
      (l₁.Pairwise fun a b => entryLe a b = true) →
      (l₂.Pairwise fun a b => entryLe a b = true) →
      (l₁.Pairwise fun a b => entryKey a ≠ entryKey b) → l₁ = l₂ := by
  intro l₁
  induction l₁ with
  | nil =>
    intro l₂ hp _ _ _
    exact (List.Perm.eq_nil hp.symm).symm
  | cons a t₁ ih =>
    intro l₂ hp hs₁ hs₂ hd
    cases l₂ with
    | nil => exact absurd (hp.mem_iff.mp (List.mem_cons_self a t₁)) (List.not_mem_nil a)
    | cons b t₂ =>
      by_cases hab : a = b
      · subst hab
        have htail := hp.cons_inv
        rw [ih htail (List.pairwise_cons.mp hs₁).2 (List.pairwise_cons.mp hs₂).2
          (List.pairwise_cons.mp hd).2]
      · exfalso
        have hat2 : a ∈ t₂ := by
          rcases List.mem_cons.mp (hp.mem_iff.mp (List.mem_cons_self a t₁)) with h | h
          · exact absurd h hab
          · exact h
        have hbt1 : b ∈ t₁ := by
          rcases List.mem_cons.mp (hp.symm.mem_iff.mp (List.mem_cons_self b t₂)) with h | h
          · exact absurd h.symm hab
          · exact h
        have hba : entryLe b a = true := (List.pairwise_cons.mp hs₂).1 a hat2
        have hab2 : entryLe a b = true := (List.pairwise_cons.mp hs₁).1 b hbt1
        exact (List.pairwise_cons.mp hd).1 b hbt1 (entryLe_antisymm_key hab2 hba)

/-- Two enumeration orders of the same entries sort identically when no two
entries share a sort key. -/
theorem sortEntries_eq_of_perm {es es' : List FSEntry} (hp : es.Perm es')
    (hd : es.Pairwise fun a b => entryKey a ≠ entryKey b) :
    sortEntries es = sortEntries es' := by
  have hperm : (sortEntries es).Perm (sortEntries es') :=
    ((sortEntries_perm es).trans hp).trans (sortEntries_perm es').symm
  have hd1 : (sortEntries es).Pairwise fun a b => entryKey a ≠ entryKey b :=
    ((sortEntries_perm es).pairwise_iff fun h => Ne.symm h).mpr hd
  exact sorted_perm_distinct_eq hperm (sortEntries_pairwise es)
    (sortEntries_pairwise es') hd1

/-- Claim C3, the part that fails: Python's `sorted` is stable, so two
entries whose keys tie — here the files `A` and `a`, whose lowercased names
coincide — keep their enumeration order, and two enumerations of the same
entry set produce different emission orders. -/
theorem claim3_counterexample :
    ([FSEntry.file "A" 1, FSEntry.file "a" 2].Perm
      [FSEntry.file "a" 2, FSEntry.file "A" 1]) ∧
    walkDirectory (noFilterCfg none) [] [FSEntry.file "A" 1, FSEntry.file "a" 2] 0 ≠
      walkDirectory (noFilterCfg none) [] [FSEntry.file "a" 2, FSEntry.file "A" 1] 0 := by
  constructor
  · exact List.Perm.swap _ _ _
  · have h1 : walkDirectory (noFilterCfg none) []
        [FSEntry.file "A" 1, FSEntry.file "a" 2] 0 =
        [RNode.mk "A" false "" (some 1) "📄 " [],
         RNode.mk "a" false "" (some 2) "📄 " []] := by
      simp +decide [walkDirectory_eq, noFilterCfg, atMaxDepth, sortEntries,
        insertSorted, entryLe, FSEntry.isFile, lowerChars, charLower, natListLe,
        walkStep.eq_def, strStartsWith, shouldIgnoreEntry, shouldExcludeEntry,
        fileIcon, pathSuffix, rfindDot, FSEntry.name]
    have h2 : walkDirectory (noFilterCfg none) []
        [FSEntry.file "a" 2, FSEntry.file "A" 1] 0 =
        [RNode.mk "a" false "" (some 2) "📄 " [],
         RNode.mk "A" false "" (some 1) "📄 " []] := by
      simp +decide [walkDirectory_eq, noFilterCfg, atMaxDepth, sortEntries,
        insertSorted, entryLe, FSEntry.isFile, lowerChars, charLower, natListLe,
        walkStep.eq_def, strStartsWith, shouldIgnoreEntry, shouldExcludeEntry,
        fileIcon, pathSuffix, rfindDot, FSEntry.name]
    rw [h1, h2]
    intro hEq
    injection hEq with hhd _
    injection hhd with hname _
    exact absurd hname (by decide)

/-- Claim C3 (amended): every forest the walker emits lists all subdirectory
nodes before all file nodes, case-insensitively nondecreasing within each
group; and the emission order is identical across any two enumeration orders
of the same entry set whenever no two entries share the sort key (is-file
flag, lowercased name).  When two entries tie on the key — distinct names
equal case-insensitively — the stable sort keeps enumeration order, so full
enumeration-independence fails (see the counterexample). -/
theorem claim3_order_determinism (cfg : WalkConfig) (dirPath : List String)
    (entries other : List FSEntry) (currentDepth : Nat) :
    ((walkDirectory cfg dirPath entries currentDepth).Pairwise
      fun a b => nodeLe a b = true) ∧
    (entries.Perm other →
      (entries.Pairwise fun a b => entryKey a ≠ entryKey b) →
      walkDirectory cfg dirPath entries currentDepth =
        walkDirectory cfg dirPath other currentDepth) := by
  refine ⟨walk_pairwise cfg dirPath entries currentDepth, fun hp hd => ?_⟩
  rw [walkDirectory_eq, walkDirectory_eq, sortEntries_eq_of_perm hp hd]

/-- Witness for C3 (amended): a directory and a file with distinct keys; the
emitted forest is ordered and both enumeration orders give the same forest. -/
theorem claim3_witness :
    ((walkDirectory (noFilterCfg none) []
        [FSEntry.file "b.txt" 1, FSEntry.dir "Alpha" []] 0).Pairwise
      fun a b => nodeLe a b = true) ∧
    walkDirectory (noFilterCfg none) []
        [FSEntry.file "b.txt" 1, FSEntry.dir "Alpha" []] 0 =
      walkDirectory (noFilterCfg none) []
        [FSEntry.dir "Alpha" [], FSEntry.file "b.txt" 1] 0 :=
  ⟨(claim3_order_determinism (noFilterCfg none) []
      [FSEntry.file "b.txt" 1, FSEntry.dir "Alpha" []]
      [FSEntry.dir "Alpha" [], FSEntry.file "b.txt" 1] 0).1,
   (claim3_order_determinism (noFilterCfg none) []
      [FSEntry.file "b.txt" 1, FSEntry.dir "Alpha" []]
      [FSEntry.dir "Alpha" [], FSEntry.file "b.txt" 1] 0).2
     (List.Perm.swap _ _ _)
     (by simp [List.pairwise_cons, entryKey, FSEntry.isFile])⟩
